import Mathlib

/-!
Shallow embedding of the MMAS dictionary engine (`pkg/dict/dict.go`).

Bytes are modelled as natural numbers, BLOBs as lists of bytes.  The sqlite
`chunks` table is a list of records whose hash column is kept unique by
`upsert` (mirroring `hash BLOB UNIQUE ON CONFLICT REPLACE`).  The SHA-1
digest (external `crypto/sha1`) is abstracted as a parameter `digest`; the
camlistore rolling checksum (external `camlistore.org/pkg/rollsum`, not part
of this repository) is abstracted as a boundary predicate `onSplit` on the
sequence of bytes rolled so far, with a concrete instance `onSplitSpec`
modelled from the spec for concrete evaluations.
-/

namespace MMAS

/-- A content digest (BLOB), modelled as a list of byte values. -/
abbrev Hash := List Nat

/-- One row of the sqlite `chunks` table: `content BLOB, hash BLOB UNIQUE, count INTEGER`. -/
structure ChunkRec where
  content : List Nat
  hash : Hash
  count : Nat
deriving DecidableEq

/-- The `chunks` table. -/
abbrev ChunkStore := List ChunkRec

/-- `SELECT count FROM chunks WHERE hash = ?`. -/
def lookupCount (s : ChunkStore) (h : Hash) : Option Nat :=
  (s.find? fun r => r.hash == h).map fun r => r.count

/-- The occurrence count recorded for a hash, `0` when no record exists. -/
def countOf (s : ChunkStore) (h : Hash) : Nat :=
  (lookupCount s h).getD 0

/-- `sqlUpSert`: `INSERT OR REPLACE INTO chunks VALUES (?, ?, COALESCE(1 + (SELECT count FROM chunks WHERE hash = ?), 1))`.
The `UNIQUE ON CONFLICT REPLACE` constraint drops any previous row with the same hash. -/
def upsert (s : ChunkStore) (content : List Nat) (h : Hash) : ChunkStore :=
  let newCount :=
    match lookupCount s h with
    | some c => 1 + c
    | none => 1
  ⟨content, h, newCount⟩ :: s.filter fun r => !(r.hash == h)

/-- The chunking loop of `parse`: `rolled` is every byte rolled into the
checksum so far (which determines the rollsum state), `buf` the bytes of the
chunk being built.  On a boundary the buffer is emitted and reset; when input
ends, whatever remains in `buf` is dropped (no final chunk is emitted). -/
def chunksGo (onSplit : List Nat → Bool) : List Nat → List Nat → List Nat → List (List Nat)
  | _, _, [] => []
  | rolled, buf, b :: q =>
    if onSplit (rolled ++ [b]) then
      (buf ++ [b]) :: chunksGo onSplit (rolled ++ [b]) [] q
    else
      chunksGo onSplit (rolled ++ [b]) (buf ++ [b]) q

/-- The chunks produced by one `parse` call over `content`. -/
def chunks (onSplit : List Nat → Bool) (content : List Nat) : List (List Nat) :=
  chunksGo onSplit [] [] content

/-- Modelled from the spec: the rolling checksum of the external
`camlistore.org/pkg/rollsum` package (not under this repository's source),
described as an O(1)-updatable checksum over a trailing window of recently
consumed bytes. -/
def rollingChecksum (rolled : List Nat) : Nat :=
  (rolled.drop (rolled.length - 64)).sum

/-- Modelled from the spec: `OnSplitWithBits(5)` — a boundary is hit when the
  low 5 bits of the rolling checksum are zero. -/
def onSplitSpec (rolled : List Nat) : Bool :=
  rollingChecksum rolled % 32 == 0

/-- The in-memory engine state of `Dict`: the sqlite store, the
`sdchDictChunks` field (nil and empty are treated identically by the code, so
a plain list), the bytes last written to the `dictraw` staging file, and the
two statistics counters. -/
structure Dict where
  store : ChunkStore
  sdchDictChunks : List Hash
  dictraw : Option (List Nat)
  totalBytesDup : Nat
  totalBytesIn : Nat
deriving DecidableEq

/-- A freshly opened `Dict` over an empty table. -/
def emptyDict : Dict :=
  ⟨[], [], none, 0, 0⟩

/-- `bytes.Compare(a, b) <= 0` / sqlite BLOB (memcmp) comparison:
lexicographic, a proper prefix sorts first. -/
def hashLeB : List Nat → List Nat → Bool
  | [], _ => true
  | _ :: _, [] => false
  | a :: as, b :: bs =>
    if a < b then true
    else if b < a then false
    else hashLeB as bs

/-- The ordering used by `sort.Sort(sliceslice(all))`. -/
def hashLe (a b : Hash) : Prop :=
  hashLeB a b = true

instance : DecidableRel hashLe := fun _ _ => inferInstanceAs (Decidable (_ = true))

/-- `ORDER BY count, hash DESC`: count ascending, ties broken by hash descending. -/
def popRel (r1 r2 : ChunkRec) : Prop :=
  r1.count < r2.count ∨ (r1.count = r2.count ∧ hashLe r2.hash r1.hash)

instance : DecidableRel popRel := fun _ _ => inferInstanceAs (Decidable (_ ∨ _))

/-- `SELECT hash, content FROM chunks WHERE COUNT > 1 ORDER BY count, hash DESC`:
the rows with count above one, sorted by the query's key. -/
def popularChunks (s : ChunkStore) : List ChunkRec :=
  List.insertionSort popRel (s.filter fun r => decide (1 < r.count))

/-- The candidate hash sequence accumulated from the query rows. -/
def candidateHashes (s : ChunkStore) : List Hash :=
  (popularChunks s).map fun r => r.hash

/-- The concatenation of the query rows' contents, in row order. -/
def candidateContents (s : ChunkStore) : List Nat :=
  ((popularChunks s).map fun r => r.content).flatten

/-- The `all` slice of `needToUpdate`: `make` allocates
`len(active)+len(cand)` zero slots, the first `copy` fills the front with the
active set, and the second `copy` writes into `all[len(all):]` — an empty
slice — so the candidate hashes never land and the tail keeps its zero values
(nil byte slices). -/
def combinedAll (active cand : List Hash) : List Hash :=
  active ++ List.replicate cand.length []

/-- `sort.Sort(sliceslice(all))`: the combined slice sorted ascending by
`bytes.Compare`. -/
def sortedCombined (active cand : List Hash) : List Hash :=
  List.insertionSort hashLe (combinedAll active cand)

/-- The scan loop of `needToUpdate` after the first element: `last` is the
previous element, `isDup` the duplicate flag (never reset by the code),
`uniq` the running count. -/
def scanGo : Hash → Bool → Nat → List Hash → Nat
  | _, _, uniq, [] => uniq
  | last, isDup, uniq, x :: rest =>
    if x = last then scanGo last true uniq rest
    else if isDup then scanGo x true uniq rest
    else scanGo x false (uniq + 1) rest

/-- The unique-count computed by the scan of `needToUpdate` (the code indexes
`all[0]`, so the empty case is unreachable there). -/
def scanUniq : List Hash → Nat
  | [] => 0
  | x :: rest => scanGo x false 0 rest

/-- `float64(uniq)/float64(len(d.sdchDictChunks)) > float64(0.1)`, modelled
as the exact rational comparison. -/
def changeCond (uniq activeLen : Nat) : Bool :=
  decide ((uniq : ℚ) / (activeLen : ℚ) > 1 / 10)

/-- `needToUpdate`: returns the updated engine state (the bootstrap branch
assigns `d.sdchDictChunks`), the concatenated candidate contents, the
candidate hashes and the change decision. -/
def needToUpdate (d : Dict) : Dict × List Nat × List Hash × Bool :=
  let hashes := candidateHashes d.store
  let contents := candidateContents d.store
  if d.sdchDictChunks.isEmpty then
    ({ d with sdchDictChunks := hashes }, [], [], false)
  else
    let uniq := scanUniq (sortedCombined d.sdchDictChunks hashes)
    (d, contents, hashes, changeCond uniq d.sdchDictChunks.length)

/-- `makeDict`: on a positive change decision, write the contents to the
`dictraw` staging file and replace `sdchDictChunks` with the candidate
hashes. -/
def makeDict (d : Dict) : Dict :=
  match needToUpdate d with
  | (d', contents, hashes, change) =>
    if change then { d' with dictraw := some contents, sdchDictChunks := hashes } else d'

/-- `parse`: chunk the content, upsert every emitted chunk under its digest
(one transaction), add the consumed bytes to `totalBytesIn` (`match` stays 0,
so `totalBytesDup` is unchanged), then run `makeDict`. -/
def parse (digest : List Nat → Hash) (onSplit : List Nat → Bool) (d : Dict)
    (content : List Nat) : Dict :=
  let store' := (chunks onSplit content).foldl (fun s c => upsert s c (digest c)) d.store
  makeDict { d with store := store', totalBytesIn := d.totalBytesIn + content.length }

/-- `Eat`: run the external `vcdiff` collaborator; on failure return the
error with the state untouched and nothing scheduled, on success return the
diff and schedule the content for the background `parse` goroutine (the third
component). -/
def Eat (vcdiff : List Nat → Except String (List Nat)) (d : Dict) (content : List Nat) :
    Except String (List Nat) × Dict × Option (List Nat) :=
  match vcdiff content with
  | Except.error e => (Except.error e, d, none)
  | Except.ok diff => (Except.ok diff, d, some content)

/-- `N` successive background ingestions of the same content. -/
def ingestN (digest : List Nat → Hash) (onSplit : List Nat → Bool) (content : List Nat) :
    Nat → Dict → Dict
  | 0, d => d
  | n + 1, d => ingestN digest onSplit content n (parse digest onSplit d content)

/-! ## Helper lemmas -/

/-- Once the duplicate flag is set, the scan of `needToUpdate` never counts
another element: the flag is never cleared and the count is frozen. -/
theorem scanGo_true : ∀ (rest : List Hash) (last : Hash) (uniq : Nat),
    scanGo last true uniq rest = uniq
  | [], _, _ => rfl
  | x :: rest, last, uniq => by
    unfold scanGo
    by_cases h : x = last <;> simp [h, scanGo_true rest]

/-- Elements after an adjacent duplicate pair never change the scan result. -/
theorem scanGo_append_dup :
    ∀ (l1 : List Hash) (last : Hash) (isDup : Bool) (uniq : Nat) (h : Hash) (l2 : List Hash),
      scanGo last isDup uniq (l1 ++ h :: h :: l2) = scanGo last isDup uniq (l1 ++ [h, h])
  | [], last, isDup, uniq, h, l2 => by
    by_cases h0 : h = last
    · simp [scanGo, h0, scanGo_true]
    · cases isDup <;> simp [scanGo, h0, scanGo_true]
  | a :: l1, last, isDup, uniq, h, l2 => by
    show scanGo last isDup uniq (a :: (l1 ++ h :: h :: l2)) =
      scanGo last isDup uniq (a :: (l1 ++ [h, h]))
    unfold scanGo
    by_cases h0 : a = last <;>
      cases isDup <;>
        simp [h0, scanGo_append_dup l1]

/-- `makeDict` never touches the chunk table. -/
theorem makeDict_store (d : Dict) : (makeDict d).store = d.store := by
  unfold makeDict needToUpdate
  by_cases h : d.sdchDictChunks.isEmpty
  · simp [h]
  · simp only [h, Bool.false_eq_true, if_false]
    split <;> rfl

/-- `makeDict` never touches the `totalBytesIn` counter. -/
theorem makeDict_totalBytesIn (d : Dict) : (makeDict d).totalBytesIn = d.totalBytesIn := by
  unfold makeDict needToUpdate
  by_cases h : d.sdchDictChunks.isEmpty
  · simp [h]
  · simp only [h, Bool.false_eq_true, if_false]
    split <;> rfl

/-! ## Claims -/

/-- C1 (code bug): in `needToUpdate` the slice `all` is allocated with
`len(active)+len(cand)` slots but `copy(all[len(all):], hashes)` copies into
an empty slice, so the combined sequence is the active set followed by nil
slices — the candidate hashes never enter it.  At active set `[[1]]` and
candidate sequence `[[2]]` the sorted combined sequence is `[[], [1]]`, not a
rearrangement of `[[1], [2]]` as the claim states. -/
theorem combined_drops_candidates :
    sortedCombined [[1]] [[2]] = [[], [1]] ∧
    combinedAll [[1]] [[2]] = [[1], []] ∧
    ¬ (combinedAll [[1]] [[2]]).Perm ([[1]] ++ [[2]]) :=
  ⟨by decide, by decide, by decide⟩

/-- C2 (counterexample): on the sorted sequence `[[1], [1], [2], [3]]` — a
duplicate run followed by two later singletons — the scan of `needToUpdate`
returns `0`: the later singletons contribute nothing to the unique count,
refuting the claim that counting resumes after a run ends. -/
theorem scanUniq_ignores_later_singletons :
    scanUniq [[1], [1], [2], [3]] = 0 :=
  by decide

/-- C2 (amended): the `isDup` flag of the scan in `needToUpdate` is never
reset, so the first adjacent duplicate pair freezes the unique count for the
entire remainder of the scan: everything after the pair contributes
nothing. -/
theorem scanUniq_frozen_after_dup (l1 : List Hash) (h : Hash) (l2 : List Hash) :
    scanUniq (l1 ++ h :: h :: l2) = scanUniq (l1 ++ [h, h]) := by
  cases l1 with
  | nil => simp [scanUniq, scanGo, scanGo_true]
  | cons x l1 =>
    show scanGo x false 0 (l1 ++ h :: h :: l2) = scanGo x false 0 (l1 ++ [h, h])
    exact scanGo_append_dup l1 x false 0 h l2

/-- C5: with an empty `sdchDictChunks` (bootstrap), `needToUpdate` adopts the
candidate hash sequence and reports no change, so `makeDict` writes nothing
to the staging file: the only field that changes is the active hash set. -/
theorem makeDict_bootstrap_adopts (d : Dict) (h : d.sdchDictChunks = []) :
    makeDict d = { d with sdchDictChunks := candidateHashes d.store } := by
  unfold makeDict needToUpdate
  simp [h]

/-- Concrete instance for C5: a dictionary with a popular chunk and an empty
active set adopts the candidate hashes without touching `dictraw`. -/
def dBootstrap : Dict :=
  ⟨[⟨[9], [9], 3⟩], [], some [1], 4, 5⟩

/-- Witness for C5 at `dBootstrap`. -/
theorem makeDict_bootstrap_adopts_witness :
    dBootstrap.sdchDictChunks = [] ∧
    makeDict dBootstrap = { dBootstrap with sdchDictChunks := candidateHashes dBootstrap.store } :=
  ⟨rfl, makeDict_bootstrap_adopts dBootstrap rfl⟩

/-- C8: when the external `vcdiff` collaborator fails, `Eat` returns the
error to its caller, the engine state is byte-for-byte the one it started
with, and no background ingestion task is scheduled. -/
theorem Eat_error_no_mutation (vcdiff : List Nat → Except String (List Nat)) (d : Dict)
    (content : List Nat) (e : String) (h : vcdiff content = Except.error e) :
    Eat vcdiff d content = (Except.error e, d, none) := by
  unfold Eat
  rw [h]

/-- Witness for C8 with a collaborator that always fails. -/
theorem Eat_error_no_mutation_witness :
    (fun _ : List Nat => (Except.error "fail" : Except String (List Nat))) [1] =
        Except.error "fail" ∧
    Eat (fun _ => Except.error "fail") emptyDict [1] = (Except.error "fail", emptyDict, none) :=
  ⟨rfl, Eat_error_no_mutation _ emptyDict [1] "fail" rfl⟩

/-- C10: on empty content `parse` emits no chunks, performs no upsert,
leaves `totalBytesIn` unchanged, and is exactly a run of `makeDict` — and
that re-evaluation can still change the active dictionary, exhibited by a
state with an empty active set and one already-popular chunk, which
bootstrap-adopts the candidate on a zero-chunk call. -/
theorem parse_empty_still_rebuilds (digest : List Nat → Hash) (onSplit : List Nat → Bool)
    (d : Dict) :
    chunks onSplit [] = [] ∧
    parse digest onSplit d [] = makeDict d ∧
    (parse digest onSplit d []).store = d.store ∧
    (parse digest onSplit d []).totalBytesIn = d.totalBytesIn ∧
    ∃ d0 : Dict, (parse digest onSplit d0 []).sdchDictChunks ≠ d0.sdchDictChunks := by
  have hparse : ∀ d1 : Dict, parse digest onSplit d1 [] = makeDict d1 := fun d1 => rfl
  refine ⟨rfl, hparse d, ?_, ?_, ?_⟩
  · rw [hparse d, makeDict_store]
  · rw [hparse d, makeDict_totalBytesIn]
  · refine ⟨⟨[⟨[1], [1], 2⟩], [], none, 0, 0⟩, ?_⟩
    rw [hparse]
    decide

/-- Helper for C3: when the byte closing the input hits no boundary, the
chunk sequence is exactly that of the input without it — the bytes still
sitting in the buffer at end of input are dropped, not emitted. -/
theorem chunksGo_no_final (onSplit : List Nat → Bool) :
    ∀ (l rolled buf : List Nat) (b : Nat), onSplit (rolled ++ l ++ [b]) = false →
      chunksGo onSplit rolled buf (l ++ [b]) = chunksGo onSplit rolled buf l
  | [], rolled, buf, b, h => by
    simp only [List.append_nil, List.nil_append] at h
    simp [chunksGo, h]
  | a :: l, rolled, buf, b, h => by
    have h' : onSplit ((rolled ++ [a]) ++ l ++ [b]) = false := by
      simpa [List.append_assoc] using h
    show chunksGo onSplit rolled buf (a :: (l ++ [b])) = chunksGo onSplit rolled buf (a :: l)
    unfold chunksGo
    by_cases hs : onSplit (rolled ++ [a]) <;>
      simp [hs, chunksGo_no_final onSplit l (rolled ++ [a]) _ b h']

/-- C3 (amended): the trailing unmatched bytes of an input are discarded by
`parse`, not digested: appending a byte that hits no boundary produces the
same chunk sequence and the same chunk table as the input without it — there
is no final partial chunk. -/
theorem parse_no_final_partial_chunk (onSplit : List Nat → Bool) (content : List Nat) (b : Nat)
    (h : onSplit (content ++ [b]) = false) :
    chunks onSplit (content ++ [b]) = chunks onSplit content ∧
    ∀ (digest : List Nat → Hash) (d : Dict),
      (parse digest onSplit d (content ++ [b])).store = (parse digest onSplit d content).store := by
  have hc : chunks onSplit (content ++ [b]) = chunks onSplit content :=
    chunksGo_no_final onSplit content [] [] b (by simpa using h)
  refine ⟨hc, fun digest d => ?_⟩
  unfold parse
  rw [makeDict_store, makeDict_store]
  simp only [hc]

/-- Witness for C3 (amended): byte `7` after the chunk-closing byte `32`
hits no boundary and changes neither the chunks nor the store. -/
theorem parse_no_final_partial_chunk_witness :
    onSplitSpec ([32] ++ [7]) = false ∧
    chunks onSplitSpec ([32] ++ [7]) = chunks onSplitSpec [32] :=
  ⟨by decide, (parse_no_final_partial_chunk onSplitSpec [32] 7 (by decide)).1⟩

/-- C3 (counterexample): for input `[32, 7]` under the spec-modelled boundary
test, the last byte hits no boundary; the code produces only the chunk
`[32]`, and the trailing byte is neither chunked nor upserted — the store
holds no record for `[7]`, refuting the claim that a final partial chunk is
digested and upserted. -/
theorem parse_drops_trailing_bytes :
    onSplitSpec [32, 7] = false ∧
    chunks onSplitSpec [32, 7] = [[32]] ∧
    (parse (fun l => l) onSplitSpec emptyDict [32, 7]).store = [⟨[32], [32], 1⟩] ∧
    lookupCount (parse (fun l => l) onSplitSpec emptyDict [32, 7]).store [7] = none :=
  ⟨by decide, by decide, by decide, by decide⟩

/-- The memcmp comparison is total. -/
theorem hashLeB_total : ∀ (x y : List Nat), hashLeB x y = true ∨ hashLeB y x = true
  | [], _ => Or.inl rfl
  | _ :: _, [] => Or.inr rfl
  | a :: as, b :: bs => by
    rcases Nat.lt_trichotomy a b with h | h | h
    · left
      simp [hashLeB, h]
    · subst h
      rcases hashLeB_total as bs with h | h <;> [left; right] <;>
        simpa [hashLeB, Nat.lt_irrefl] using h
    · right
      simp [hashLeB, h]

/-- The memcmp comparison is transitive. -/
theorem hashLeB_trans : ∀ (x y z : List Nat),
    hashLeB x y = true → hashLeB y z = true → hashLeB x z = true
  | [], _, _, _, _ => rfl
  | _ :: _, [], _, h1, _ => by simp [hashLeB] at h1
  | _ :: _, _ :: _, [], _, h2 => by simp [hashLeB] at h2
  | a :: as, b :: bs, c :: cs, h1, h2 => by
    simp only [hashLeB] at h1 h2 ⊢
    rcases Nat.lt_trichotomy a b with hab | hab | hab
    · rcases Nat.lt_trichotomy b c with hbc | hbc | hbc
      · simp [Nat.lt_trans hab hbc]
      · subst hbc
        simp [hab]
      · have h2' : ¬ (b < c) := Nat.not_lt.mpr (Nat.le_of_lt hbc)
        simp [h2', hbc] at h2
    · subst hab
      rcases Nat.lt_trichotomy a c with hac | hac | hac
      · simp [hac]
      · subst hac
        simp only [Nat.lt_irrefl, if_false] at h1 h2 ⊢
        exact hashLeB_trans as bs cs h1 h2
      · have h2' : ¬ (a < c) := Nat.not_lt.mpr (Nat.le_of_lt hac)
        simp [h2', hac] at h2
    · have h1' : ¬ (a < b) := Nat.not_lt.mpr (Nat.le_of_lt hab)
      simp [h1', hab] at h1

instance : IsTotal ChunkRec popRel where
  total a b := by
    rcases Nat.lt_trichotomy a.count b.count with h | h | h
    · exact Or.inl (Or.inl h)
    · rcases hashLeB_total b.hash a.hash with hh | hh
      · exact Or.inl (Or.inr ⟨h, hh⟩)
      · exact Or.inr (Or.inr ⟨h.symm, hh⟩)
    · exact Or.inr (Or.inl h)

instance : IsTrans ChunkRec popRel where
  trans a b c hab hbc := by
    rcases hab with h1 | ⟨h1, h1'⟩ <;> rcases hbc with h2 | ⟨h2, h2'⟩
    · exact Or.inl (Nat.lt_trans h1 h2)
    · exact Or.inl (h2 ▸ h1)
    · exact Or.inl (h1 ▸ h2)
    · exact Or.inr ⟨h1.trans h2, hashLeB_trans c.hash b.hash a.hash h2' h1'⟩

/-- C6: `popularChunks` returns exactly the rows whose count is strictly
greater than one (as a rearrangement of the filtered table), ordered by
count ascending with ties broken by hash descending (`ORDER BY count, hash
DESC`) — for every store state, ties in count included. -/
theorem popularChunks_filter_sorted (s : ChunkStore) :
    (popularChunks s).Perm (s.filter fun r => decide (1 < r.count)) ∧
    (popularChunks s).Sorted
      (fun r1 r2 => r1.count < r2.count ∨ (r1.count = r2.count ∧ hashLe r2.hash r1.hash)) ∧
    ∀ r : ChunkRec, r ∈ popularChunks s ↔ r ∈ s ∧ 1 < r.count := by
  refine ⟨List.perm_insertionSort popRel _, List.sorted_insertionSort popRel _, fun r => ?_⟩
  rw [show popularChunks s = List.insertionSort popRel (s.filter fun r => decide (1 < r.count))
      from rfl,
    (List.perm_insertionSort popRel _).mem_iff, List.mem_filter]
  simp

/-- Rows whose hash is filtered away are invisible to a lookup for a
different hash. -/
theorem find?_filter_ne (h h' : Hash) (hne : h' ≠ h) :
    ∀ s : ChunkStore,
      (s.filter fun r => !(r.hash == h)).find? (fun r => r.hash == h') =
        s.find? fun r => r.hash == h'
  | [] => rfl
  | r :: s => by
    by_cases hr : r.hash = h
    · have h2 : (r.hash == h') = false := by
        simp only [beq_eq_false_iff_ne, ne_eq, hr]
        exact fun e => hne e.symm
      have h3 : (h == h') = false := by
        simp only [beq_eq_false_iff_ne, ne_eq]
        exact fun e => hne e.symm
      simp [List.filter_cons, List.find?_cons, hr, h2, h3, find?_filter_ne h h' hne s]
    · simp only [List.filter_cons, List.find?_cons]
      have h1 : (!(r.hash == h)) = true := by simp [hr]
      rw [h1]
      simp only [if_true, List.find?_cons]
      by_cases h2 : (r.hash == h') = true
      · simp [h2]
      · simp [h2, find?_filter_ne h h' hne s]

/-- `upsert` under the looked-up hash: a fresh record gets count 1, an
existing record's count grows by one. -/
theorem lookupCount_upsert_same (s : ChunkStore) (cont : List Nat) (h : Hash) :
    lookupCount (upsert s cont h) h = some (countOf s h + 1) := by
  unfold upsert countOf
  cases e : lookupCount s h <;>
    simp [e, lookupCount, List.find?_cons, Nat.add_comm]

/-- `upsert` leaves every other hash's record count alone. -/
theorem lookupCount_upsert_other (s : ChunkStore) (cont : List Nat) (h h' : Hash)
    (hne : h' ≠ h) :
    lookupCount (upsert s cont h) h' = lookupCount s h' := by
  unfold upsert
  have h2 : (h == h') = false := by
    simp only [beq_eq_false_iff_ne, ne_eq]
    exact fun e => hne e.symm
  simp only [lookupCount, List.find?_cons, h2]
  rw [find?_filter_ne h h' hne s]

/-- Count bookkeeping of a single upsert. -/
theorem countOf_upsert (s : ChunkStore) (cont : List Nat) (h h' : Hash) :
    countOf (upsert s cont h) h' = countOf s h' + (if h' = h then 1 else 0) := by
  by_cases he : h' = h
  · subst he
    simp [countOf, lookupCount_upsert_same s cont h']
  · simp [he, countOf, lookupCount_upsert_other s cont h h' he]

/-- Count bookkeeping of the upsert batch of one `parse` call: the recorded
count of a chunk's digest grows by the chunk's number of occurrences in the
batch. -/
theorem countOf_foldl_upsert (digest : List Nat → Hash) (hinj : Function.Injective digest)
    (c0 : List Nat) :
    ∀ (cs : List (List Nat)) (s : ChunkStore),
      countOf (cs.foldl (fun s c => upsert s c (digest c)) s) (digest c0) =
        countOf s (digest c0) + cs.count c0
  | [], s => by simp
  | c :: cs, s => by
    rw [List.foldl_cons, countOf_foldl_upsert digest hinj c0 cs (upsert s c (digest c)),
      countOf_upsert]
    by_cases he : c0 = c
    · subst he
      simp [List.count_cons]
      omega
    · have hd : digest c0 ≠ digest c := fun e => he (hinj e)
      simp [List.count_cons, he, hd]

/-- One background ingestion adds each chunk's multiplicity to its recorded
count. -/
theorem countOf_parse (digest : List Nat → Hash) (hinj : Function.Injective digest)
    (onSplit : List Nat → Bool) (d : Dict) (content c0 : List Nat) :
    countOf (parse digest onSplit d content).store (digest c0) =
      countOf d.store (digest c0) + (chunks onSplit content).count c0 := by
  unfold parse
  rw [makeDict_store]
  exact countOf_foldl_upsert digest hinj c0 _ d.store

/-- `N` background ingestions of the same content add `N` times each chunk's
multiplicity. -/
theorem countOf_ingestN (digest : List Nat → Hash) (hinj : Function.Injective digest)
    (onSplit : List Nat → Bool) (content c0 : List Nat) :
    ∀ (N : Nat) (d : Dict),
      countOf (ingestN digest onSplit content N d).store (digest c0) =
        countOf d.store (digest c0) + N * (chunks onSplit content).count c0
  | 0, d => by simp [ingestN]
  | N + 1, d => by
    rw [show ingestN digest onSplit content (N + 1) d =
        ingestN digest onSplit content N (parse digest onSplit d content) from rfl,
      countOf_ingestN digest hinj onSplit content c0 N (parse digest onSplit d content),
      countOf_parse digest hinj onSplit d content c0]
    ring

/-- C7 (amended): `upsert` inserts a fresh record with count 1 and otherwise
bumps the existing record's count by one; consequently ingesting the same
content `N` times from an empty store records, for every chunk, a count of
`N` times that chunk's number of occurrences in a single pass — equal to `N`
only when the chunk occurs once per pass. -/
theorem upsert_increment_and_repeat_counts (digest : List Nat → Hash)
    (hinj : Function.Injective digest) (onSplit : List Nat → Bool)
    (content c : List Nat) (N : Nat) :
    (∀ (s : ChunkStore) (cont : List Nat) (h : Hash),
        lookupCount (upsert s cont h) h = some (countOf s h + 1)) ∧
    countOf (ingestN digest onSplit content N emptyDict).store (digest c) =
      N * (chunks onSplit content).count c := by
  refine ⟨lookupCount_upsert_same, ?_⟩
  simpa [emptyDict, countOf, lookupCount] using
    countOf_ingestN digest hinj onSplit content c N emptyDict

/-- Witness for C7 (amended) with the identity digest: two ingestions of a
content that chunks into `[16,16]` twice per pass. -/
theorem upsert_increment_and_repeat_counts_witness :
    Function.Injective (fun l : List Nat => l) ∧
    ((∀ (s : ChunkStore) (cont : List Nat) (h : Hash),
        lookupCount (upsert s cont h) h = some (countOf s h + 1)) ∧
      countOf (ingestN (fun l => l) onSplitSpec [16, 16, 16, 16] 2 emptyDict).store
          ((fun l : List Nat => l) [16, 16]) =
        2 * (chunks onSplitSpec [16, 16, 16, 16]).count [16, 16]) :=
  ⟨fun _ _ e => e,
    upsert_increment_and_repeat_counts (fun l => l) (fun _ _ e => e) onSplitSpec
      [16, 16, 16, 16] [16, 16] 2⟩

/-- C7 (counterexample): under the spec-modelled boundary test the content
`[16, 16, 16, 16]` chunks into `[16, 16]` twice, so a single ingestion
(`N = 1`) already records count 2 for that chunk — not `N = 1` as the claim
states. -/
theorem ingest_once_counts_two :
    [16, 16] ∈ chunks onSplitSpec [16, 16, 16, 16] ∧
    lookupCount (ingestN (fun l => l) onSplitSpec [16, 16, 16, 16] 1 emptyDict).store
        [16, 16] = some 2 :=
  ⟨by decide, by decide⟩

/-- C4: with a non-empty active set the rebuild decision is exactly the
strict comparison `uniq / len(active) > 1/10` (equality does not fire); when
it fires, `makeDict` stages the concatenated candidate contents in query
order and replaces the active set with the candidate hashes; otherwise it
changes nothing.  The float comparison of the source is modelled as the
exact rational comparison. -/
theorem makeDict_threshold (d : Dict) (h : d.sdchDictChunks ≠ []) :
    (changeCond (scanUniq (sortedCombined d.sdchDictChunks (candidateHashes d.store)))
        d.sdchDictChunks.length = true ↔
      (scanUniq (sortedCombined d.sdchDictChunks (candidateHashes d.store)) : ℚ) /
          (d.sdchDictChunks.length : ℚ) > 1 / 10) ∧
    makeDict d =
      (if changeCond (scanUniq (sortedCombined d.sdchDictChunks (candidateHashes d.store)))
          d.sdchDictChunks.length
      then { d with dictraw := some (candidateContents d.store),
                    sdchDictChunks := candidateHashes d.store }
      else d) := by
  have hne : d.sdchDictChunks.isEmpty = false := by
    cases e : d.sdchDictChunks
    · exact absurd e h
    · rfl
  constructor
  · simp [changeCond]
  · unfold makeDict needToUpdate
    simp only [hne, Bool.false_eq_true, if_false]

/-- Concrete instance for C4: active set `[[1]]`, one popular chunk of hash
`[2]`; the buggy combined sequence is `[[], [1]]`, the scan counts 1, and
`1/1 > 1/10` fires the rebuild. -/
def dThreshold : Dict :=
  ⟨[⟨[2], [2], 2⟩], [[1]], none, 0, 0⟩

/-- Witness for C4 at `dThreshold`. -/
theorem makeDict_threshold_witness :
    dThreshold.sdchDictChunks ≠ [] ∧
    makeDict dThreshold =
      (if changeCond
          (scanUniq (sortedCombined dThreshold.sdchDictChunks (candidateHashes dThreshold.store)))
          dThreshold.sdchDictChunks.length
      then { dThreshold with dictraw := some (candidateContents dThreshold.store),
                             sdchDictChunks := candidateHashes dThreshold.store }
      else dThreshold) :=
  ⟨by decide, (makeDict_threshold dThreshold (by decide)).2⟩

end MMAS
